import Mathlib

/-!
# Verification of the curve25519-dalek / x25519-dalek excerpt

Shallow embedding of the scalar arithmetic and XEdDSA protocol code of the
repository (files `curve25519-dalek/src/scalar_verus.rs`,
`x25519-dalek/src/libsig_curve25519_verus.rs` and
`curve25519-dalek/src/backend/serial/u64/curve25519_verus.rs`).

Bytes (`u8` values) are modelled as `Nat` together with the hypothesis
`b < 256` where it matters; 32-byte arrays are `List Nat` of length 32.
`u64` arithmetic that can overflow carries an explicit `% 2 ^ 64`;
`i8` values are modelled as `Int` with an explicit wrap into `[-128, 128)`
at each operation that Rust performs on `i8`.
-/

namespace Dalek

/-- Little-endian value of a byte string, `bytes_to_nat` of the Verus
specification files: `b₀ + 256·b₁ + 256²·b₂ + ⋯`. -/
def bytesToNat : List Nat → Nat
  | [] => 0
  | b :: rest => b + 256 * bytesToNat rest

/-- All entries of a byte string are bytes. -/
def isBytes (l : List Nat) : Prop := ∀ b ∈ l, b < 256

instance (l : List Nat) : Decidable (isBytes l) := by
  unfold isBytes; infer_instance

@[simp] theorem bytesToNat_nil : bytesToNat [] = 0 := rfl

@[simp] theorem bytesToNat_cons (b : Nat) (l : List Nat) :
    bytesToNat (b :: l) = b + 256 * bytesToNat l := rfl

theorem bytesToNat_append (a b : List Nat) :
    bytesToNat (a ++ b) = bytesToNat a + 256 ^ a.length * bytesToNat b := by
  induction a with
  | nil => simp
  | cons x xs ih => simp [ih, pow_succ]; ring

theorem bytesToNat_lt (l : List Nat) (h : isBytes l) :
    bytesToNat l < 256 ^ l.length := by
  induction l with
  | nil => simp
  | cons x xs ih =>
    have hx : x < 256 := h x (List.mem_cons_self x xs)
    have hxs := ih (fun b hb => h b (List.mem_cons_of_mem x hb))
    simp only [bytesToNat_cons, List.length_cons, pow_succ]
    calc x + 256 * bytesToNat xs
        < 256 * (bytesToNat xs + 1) := by omega
      _ ≤ 256 * 256 ^ xs.length := by
          have : bytesToNat xs + 1 ≤ 256 ^ xs.length := hxs
          exact Nat.mul_le_mul_left _ this
      _ = 256 ^ xs.length * 256 := by ring

theorem bytesToNat_drop (k : Nat) (l : List Nat) (h : isBytes l) :
    bytesToNat (l.drop k) = bytesToNat l / 256 ^ k := by
  induction k generalizing l with
  | zero => simp
  | succ k ih =>
    cases l with
    | nil => simp [Nat.zero_div]
    | cons x xs =>
      have hx : x < 256 := h x (List.mem_cons_self x xs)
      have hxs : isBytes xs := fun b hb => h b (List.mem_cons_of_mem x hb)
      have step : (x + 256 * bytesToNat xs) / 256 = bytesToNat xs := by
        omega
      simp only [List.drop_succ_cons, bytesToNat_cons, ih xs hxs, pow_succ]
      rw [show (256 : Nat) ^ k * 256 = 256 * 256 ^ k by ring,
        ← Nat.div_div_eq_div_mul, step]

theorem bytesToNat_take (k : Nat) (l : List Nat) (h : isBytes l) :
    bytesToNat (l.take k) = bytesToNat l % 256 ^ k := by
  have hsplit := congrArg bytesToNat (List.take_append_drop k l).symm
  rw [bytesToNat_append, bytesToNat_drop k l h] at hsplit
  by_cases hk : k ≤ l.length
  · have hlen : (l.take k).length = k := by simp [hk]
    rw [hlen] at hsplit
    have hlt : bytesToNat (l.take k) < 256 ^ k := by
      have : isBytes (l.take k) := fun b hb => h b (List.mem_of_mem_take hb)
      have := bytesToNat_lt _ this
      rwa [hlen] at this
    have := Nat.div_add_mod (bytesToNat l) (256 ^ k)
    omega
  · push_neg at hk
    rw [List.take_of_length_le (le_of_lt hk)]
    have hlt : bytesToNat l < 256 ^ k :=
      lt_of_lt_of_le (bytesToNat_lt l h)
        (Nat.pow_le_pow_right (by norm_num) (le_of_lt hk))
    rw [Nat.mod_eq_of_lt hlt]

/-- Each byte contributes at least `256 ^ i · bᵢ` to the value. -/
theorem le_bytesToNat_of_getD (l : List Nat) (i : Nat) (hi : i < l.length) :
    256 ^ i * l.getD i 0 ≤ bytesToNat l := by
  induction l generalizing i with
  | nil => simp at hi
  | cons x xs ih =>
    cases i with
    | zero => simp [bytesToNat_cons]
    | succ i =>
      have hi' : i < xs.length := by simpa using hi
      have := ih i hi'
      simp only [List.getD_cons_succ, bytesToNat_cons, pow_succ]
      calc 256 ^ i * 256 * xs.getD i 0 = 256 * (256 ^ i * xs.getD i 0) := by ring
        _ ≤ 256 * bytesToNat xs := by omega
        _ ≤ x + 256 * bytesToNat xs := by omega

/-- Replacing the byte at index `i` changes the value by the weighted
difference. Stated additively to stay inside `Nat`. -/
theorem bytesToNat_set (l : List Nat) (i x : Nat) (hi : i < l.length) :
    bytesToNat (l.set i x) + 256 ^ i * l.getD i 0 =
      bytesToNat l + 256 ^ i * x := by
  induction l generalizing i with
  | nil => simp at hi
  | cons y ys ih =>
    cases i with
    | zero => simp [bytesToNat_cons]; ring
    | succ i =>
      have hi' : i < ys.length := by simpa using hi
      have := ih i hi'
      simp only [List.set_cons_succ, bytesToNat_cons, List.getD_cons_succ,
        pow_succ]
      nlinarith [this]

theorem bytesToNat_mod_8 (b : Nat) (l : List Nat) :
    bytesToNat (b :: l) % 8 = b % 8 := by
  simp only [bytesToNat_cons]
  omega

/-- Little-endian byte encoding of a natural number, `k` bytes. -/
def natToBytesAux : Nat → Nat → List Nat
  | _, 0 => []
  | n, k + 1 => n % 256 :: natToBytesAux (n / 256) k

/-- Canonical 32-byte little-endian encoding used by the modelled scalar
arithmetic. -/
def natToBytes32 (n : Nat) : List Nat := natToBytesAux n 32

@[simp] theorem length_natToBytesAux (n k : Nat) :
    (natToBytesAux n k).length = k := by
  induction k generalizing n with
  | zero => rfl
  | succ k ih => simp [natToBytesAux, ih]

theorem isBytes_natToBytesAux (n k : Nat) : isBytes (natToBytesAux n k) := by
  induction k generalizing n with
  | zero => intro b hb; simp [natToBytesAux] at hb
  | succ k ih =>
    intro b hb
    simp only [natToBytesAux, List.mem_cons] at hb
    rcases hb with h | h
    · omega
    · exact ih _ b h

theorem bytesToNat_natToBytesAux (n k : Nat) :
    bytesToNat (natToBytesAux n k) = n % 256 ^ k := by
  induction k generalizing n with
  | zero => simp [natToBytesAux, Nat.mod_one]
  | succ k ih =>
    simp only [natToBytesAux, bytesToNat_cons, ih]
    rw [pow_succ, Nat.mul_comm (256 ^ k) 256, Nat.mod_mul]

theorem bytesToNat_natToBytes32 (n : Nat) (h : n < 256 ^ 32) :
    bytesToNat (natToBytes32 n) = n := by
  rw [natToBytes32, bytesToNat_natToBytesAux, Nat.mod_eq_of_lt h]

/-- The Ed25519 group order ℓ = 2^252 + 27742317777372353535851937790883648493
(`group_order()` of the Verus specification files). -/
def groupOrder : Nat := 2 ^ 252 + 27742317777372353535851937790883648493

/-- `Scalar` of `curve25519-dalek/src/scalar_verus.rs`: a little-endian
32-byte encoding of an integer representing a scalar modulo ℓ. -/
structure Scalar where
  bytes : List Nat
  deriving DecidableEq, Repr

/-- `to_nat_Scalar` of `scalar_verus.rs`: the integer a scalar's bytes
encode. -/
def toNatScalar (s : Scalar) : Nat := bytesToNat s.bytes

/-- `Scalar::ZERO` of `scalar_verus.rs`. -/
def Scalar.ZERO : Scalar := ⟨List.replicate 32 0⟩

/-- `Scalar::ONE` of `scalar_verus.rs`. -/
def Scalar.ONE : Scalar := ⟨1 :: List.replicate 31 0⟩

/-- `Scalar::from_bits` of `scalar_verus.rs`: direct conversion without any
reduction, `Scalar { bytes }`. -/
def Scalar.from_bits (bytes : List Nat) : Scalar := ⟨bytes⟩

/-- Modelled from the spec: `Scalar::reduce` in `scalar_verus.rs` delegates
to `UnpackedScalar` Montgomery arithmetic
(`backend::serial::u64::scalar::Scalar52`), which is not part of this
excerpt.  Per spec §4.1, reduction "interprets bytes as little-endian
integer, reduces mod ℓ" and returns the canonical representative. -/
def Scalar.reduce (s : Scalar) : Scalar :=
  ⟨natToBytes32 (bytesToNat s.bytes % groupOrder)⟩

/-- `Scalar::from_bytes_mod_order` of `scalar_verus.rs`: wraps the bytes
unreduced, then reduces mod the group order. -/
def Scalar.from_bytes_mod_order (bytes : List Nat) : Scalar :=
  let s_unreduced : Scalar := ⟨bytes⟩
  s_unreduced.reduce

/-- `Scalar::from_canonical_bytes` of `scalar_verus.rs` as implemented: the
code checks only that the high bit of byte 31 is unset and returns the
candidate scalar, without the `is_canonical` conjunct of the original
dalek code (kept there only as a comment). -/
def Scalar.from_canonical_bytes (bytes : List Nat) : Option Scalar :=
  let high_bit_unset : Bool := bytes.getD 31 0 >>> 7 == 0
  let candidate : Scalar := ⟨bytes⟩
  if high_bit_unset then some candidate else none

/-- `Scalar::from_bytes_mod_order_wide` of `scalar_verus.rs` as
implemented: the code copies only the first 32 of the 64 input bytes into a
fresh buffer and reduces those ("take the first 32 bytes and reduce them";
the original `UnpackedScalar::from_bytes_wide` call is commented out). -/
def Scalar.from_bytes_mod_order_wide (input : List Nat) : Scalar :=
  let bytes : List Nat := (List.range 32).map (fun i => input.getD i 0)
  Scalar.from_bytes_mod_order bytes

/-- `Scalar::invert` of `scalar_verus.rs` as implemented: the original
`self.unpack().invert().pack()` is commented out and the function returns
the constant placeholder scalar with bytes `[1, 0, …, 0]`. -/
def Scalar.invert (_self : Scalar) : Scalar :=
  ⟨1 :: List.replicate 31 0⟩

/-- `clamp_integer` (identical in `scalar_verus.rs` and
`libsig_curve25519_verus.rs`): `bytes[0] &= 248; bytes[31] &= 127;
bytes[31] |= 64`. -/
def clamp_integer (bytes : List Nat) : List Nat :=
  let b0 := bytes.set 0 (bytes.getD 0 0 &&& 248)
  let b1 := b0.set 31 (b0.getD 31 0 &&& 127)
  b1.set 31 (b1.getD 31 0 ||| 64)

theorem getD_set_ne {α : Type} (l : List α) {i j : Nat} (x d : α)
    (h : i ≠ j) : (l.set i x).getD j d = l.getD j d := by
  simp [List.getD_eq_getElem?_getD, List.getElem?_set_ne h]

theorem getD_set_self {α : Type} (l : List α) {i : Nat} (x d : α)
    (h : i < l.length) : (l.set i x).getD i d = x := by
  simp [List.getD_eq_getElem?_getD, List.getElem?_set_self h]

theorem clamp_getD_zero (l : List Nat) (h : 0 < l.length) :
    (clamp_integer l).getD 0 0 = l.getD 0 0 &&& 248 := by
  unfold clamp_integer
  rw [getD_set_ne _ _ _ (by omega), getD_set_ne _ _ _ (by omega),
    getD_set_self _ _ _ h]

theorem clamp_getD_31 (l : List Nat) (h : 31 < l.length) :
    (clamp_integer l).getD 31 0 = (l.getD 31 0 &&& 127) ||| 64 := by
  unfold clamp_integer
  rw [getD_set_self _ _ _ (by simpa using h),
    getD_set_self _ _ _ (by simpa using h), getD_set_ne _ _ _ (by omega)]

theorem length_clamp (l : List Nat) : (clamp_integer l).length = l.length := by
  simp [clamp_integer]

theorem isBytes_clamp (l : List Nat) (h : isBytes l) :
    isBytes (clamp_integer l) := by
  intro b hb
  unfold clamp_integer at hb
  rcases List.mem_or_eq_of_mem_set hb with hb | rfl
  · rcases List.mem_or_eq_of_mem_set hb with hb | rfl
    · rcases List.mem_or_eq_of_mem_set hb with hb | rfl
      · exact h b hb
      · exact lt_of_le_of_lt Nat.and_le_right (by norm_num)
    · exact lt_of_le_of_lt Nat.and_le_right (by norm_num)
  · have h1 : ((l.set 0 (l.getD 0 0 &&& 248)).set 31
        ((l.set 0 (l.getD 0 0 &&& 248)).getD 31 0 &&& 127)).getD 31 0 < 128 := by
      by_cases h31 : 31 < (l.set 0 (l.getD 0 0 &&& 248)).length
      · rw [getD_set_self _ _ _ h31]
        exact lt_of_le_of_lt Nat.and_le_right (by norm_num)
      · rw [List.getD_eq_getElem?_getD, List.getElem?_eq_none (by
          simp only [List.length_set] at h31 ⊢; omega)]
        norm_num
    calc _ < 2 ^ 7 := Nat.or_lt_two_pow (n := 7) h1 (by norm_num)
      _ < 256 := by norm_num

theorem le_or_right (a b : Nat) : b ≤ a ||| b := by
  apply Nat.le_of_testBit
  intro i hi
  rw [Nat.testBit_or, hi, Bool.or_true]

theorem drop31_of_length32 (r : List Nat) (h : r.length = 32) :
    r.drop 31 = [r.getD 31 0] := by
  have h31 : 31 < r.length := by omega
  rw [List.drop_eq_getElem_cons h31, List.drop_eq_nil_of_le (by omega),
    List.getD_eq_getElem?_getD, List.getElem?_eq_getElem h31]
  rfl

/-- **C4.** `clamp_integer` clears the low 3 bits of byte 0, clears the top
bit and sets the second-highest bit of byte 31, and the resulting
little-endian value `v` satisfies `2^254 ≤ v < 2^255` and `8 ∣ v`. -/
theorem clamp_integer_spec (l : List Nat) (hlen : l.length = 32)
    (hb : isBytes l) :
    (clamp_integer l).getD 0 0 = l.getD 0 0 &&& 248 ∧
    (clamp_integer l).getD 31 0 = (l.getD 31 0 &&& 127) ||| 64 ∧
    2 ^ 254 ≤ bytesToNat (clamp_integer l) ∧
    bytesToNat (clamp_integer l) < 2 ^ 255 ∧
    bytesToNat (clamp_integer l) % 8 = 0 := by
  have h0 : (0 : Nat) < l.length := by omega
  have h31 : (31 : Nat) < l.length := by omega
  have hg0 := clamp_getD_zero l h0
  have hg31 := clamp_getD_31 l h31
  have hrlen : (clamp_integer l).length = 32 := by rw [length_clamp, hlen]
  have hrb : isBytes (clamp_integer l) := isBytes_clamp l hb
  have hv128 : (clamp_integer l).getD 31 0 < 128 := by
    rw [hg31]
    exact Nat.or_lt_two_pow (n := 7)
      (lt_of_le_of_lt Nat.and_le_right (by norm_num)) (by norm_num)
  have hv64 : 64 ≤ (clamp_integer l).getD 31 0 := by
    rw [hg31]; exact le_or_right _ 64
  refine ⟨hg0, hg31, ?_, ?_, ?_⟩
  · calc (2 : Nat) ^ 254 = 256 ^ 31 * 64 := by norm_num
      _ ≤ 256 ^ 31 * (clamp_integer l).getD 31 0 :=
          Nat.mul_le_mul_left _ hv64
      _ ≤ bytesToNat (clamp_integer l) :=
          le_bytesToNat_of_getD _ 31 (by omega)
  · have hdm := Nat.div_add_mod (bytesToNat (clamp_integer l)) (256 ^ 31)
    have hdrop := bytesToNat_drop 31 (clamp_integer l) hrb
    rw [drop31_of_length32 _ hrlen] at hdrop
    have hsingle : bytesToNat [(clamp_integer l).getD 31 0] =
        (clamp_integer l).getD 31 0 := by simp
    rw [hsingle] at hdrop
    have hmod : bytesToNat (clamp_integer l) % 256 ^ 31 < 256 ^ 31 :=
      Nat.mod_lt _ (Nat.pos_pow_of_pos _ (by norm_num))
    calc bytesToNat (clamp_integer l)
        = 256 ^ 31 * (bytesToNat (clamp_integer l) / 256 ^ 31) +
            bytesToNat (clamp_integer l) % 256 ^ 31 := hdm.symm
      _ < 256 ^ 31 * 127 + 256 ^ 31 := by
          rw [← hdrop]
          have : (clamp_integer l).getD 31 0 ≤ 127 := by omega
          have := Nat.mul_le_mul_left (256 ^ 31) this
          omega
      _ ≤ 2 ^ 255 := by norm_num
  · obtain ⟨rb, rtl, hcons⟩ : ∃ b tl, clamp_integer l = b :: tl := by
      cases hc : clamp_integer l with
      | nil => rw [hc] at hrlen; simp at hrlen
      | cons b tl => exact ⟨b, tl, rfl⟩
    have hrb0 : rb = l.getD 0 0 &&& 248 := by
      rw [← hg0, hcons]; rfl
    rw [hcons, bytesToNat_mod_8, hrb0]
    have h8 : (l.getD 0 0 &&& 248) % 8 = (l.getD 0 0 &&& 248) &&& (2 ^ 3 - 1) :=
      (Nat.and_pow_two_sub_one_eq_mod _ 3).symm
    rw [h8, Nat.and_assoc, show (248 &&& (2 ^ 3 - 1) : Nat) = 0 from rfl,
      Nat.and_zero]

/-- Closed-form witness for `clamp_integer_spec` at a concrete input. -/
theorem clamp_integer_spec_witness :
    2 ^ 254 ≤ bytesToNat (clamp_integer (255 :: List.replicate 31 255)) ∧
    bytesToNat (clamp_integer (255 :: List.replicate 31 255)) < 2 ^ 255 ∧
    bytesToNat (clamp_integer (255 :: List.replicate 31 255)) % 8 = 0 := by
  have h := clamp_integer_spec (255 :: List.replicate 31 255)
    (by decide) (by decide)
  exact ⟨h.2.2.1, h.2.2.2.1, h.2.2.2.2⟩

/-- **C10.** `Scalar::from_bits` keeps the bytes exactly as given — no
reduction mod ℓ and no masking of the most significant bit of byte 31 —
and an input with the top bit of byte 31 set yields a scalar whose value
is at least `2^255`. -/
theorem from_bits_spec (bytes : List Nat) :
    (Scalar.from_bits bytes).bytes = bytes ∧
    (31 < bytes.length → 128 ≤ bytes.getD 31 0 →
      2 ^ 255 ≤ toNatScalar (Scalar.from_bits bytes)) := by
  refine ⟨rfl, fun hlen htop => ?_⟩
  have h := le_bytesToNat_of_getD bytes 31 hlen
  calc (2 : Nat) ^ 255 = 256 ^ 31 * 128 := by norm_num
    _ ≤ 256 ^ 31 * bytes.getD 31 0 := Nat.mul_le_mul_left _ htop
    _ ≤ bytesToNat bytes := h

/-- Closed-form witness for `from_bits_spec` at a concrete input with the
top bit set. -/
theorem from_bits_spec_witness :
    (Scalar.from_bits (List.replicate 31 0 ++ [128])).bytes =
      List.replicate 31 0 ++ [128] ∧
    2 ^ 255 ≤ toNatScalar (Scalar.from_bits (List.replicate 31 0 ++ [128])) :=
  ⟨(from_bits_spec (List.replicate 31 0 ++ [128])).1,
    (from_bits_spec (List.replicate 31 0 ++ [128])).2 (by decide) (by decide)⟩

/-- Little-endian encoding of the group order ℓ itself: its top bit
(bit 255) is clear, yet its value is not canonical (it is not `< ℓ`). -/
def ellBytes : List Nat :=
  [237, 211, 245, 92, 26, 99, 18, 88, 214, 156, 247, 162, 222, 249, 222, 20,
   0, 0, 0, 0, 0, 0, 0, 0, 0, 0, 0, 0, 0, 0, 0, 16]

/-- **C2, counterexample.** The implemented `from_canonical_bytes` checks
only the high bit of byte 31, so on the encoding of ℓ itself — whose value
is `≥ ℓ` but whose top bit is clear — it returns `Some` although the claim
requires `None`. -/
theorem from_canonical_bytes_accepts_noncanonical :
    Scalar.from_canonical_bytes ellBytes = some ⟨ellBytes⟩ ∧
    groupOrder ≤ bytesToNat ellBytes := by
  constructor
  · rfl
  · decide

/-- **C3, counterexample.** The implemented `Scalar::invert` is a constant
placeholder returning the scalar 1, so for the nonzero scalar 2 the claimed
identity `invert(s) · s ≡ 1 (mod ℓ)` fails. -/
theorem invert_placeholder_not_inverse :
    toNatScalar ⟨(2 : Nat) :: List.replicate 31 0⟩ % groupOrder ≠ 0 ∧
    Scalar.invert ⟨(2 : Nat) :: List.replicate 31 0⟩ = Scalar.ONE ∧
    toNatScalar (Scalar.invert ⟨(2 : Nat) :: List.replicate 31 0⟩) *
        toNatScalar ⟨(2 : Nat) :: List.replicate 31 0⟩ % groupOrder ≠
      1 % groupOrder := by
  refine ⟨by decide, rfl, by decide⟩

/-- Concrete 64-byte input whose value is `2^256`: all of the information
is in the upper 32 bytes. -/
def wideInput : List Nat :=
  List.replicate 32 0 ++ 1 :: List.replicate 31 0

/-- **C1, counterexample.** The implemented `from_bytes_mod_order_wide`
drops the upper 32 bytes: on the 64-byte encoding of `2^256` it returns
the scalar 0, while true reduction of the full 512-bit value mod ℓ is
nonzero. -/
theorem from_bytes_mod_order_wide_truncates :
    toNatScalar (Scalar.from_bytes_mod_order_wide wideInput) = 0 ∧
    bytesToNat wideInput % groupOrder ≠ 0 := by
  constructor
  · rfl
  · decide

/-! ## Radix-16 decomposition (`Scalar::as_radix_16`) -/

/-- Wrap an integer into the two's-complement range `[-128, 128)` of `i8`.
Used wherever the Rust code performs an `i8` operation that could wrap. -/
def i8wrap (z : Int) : Int := (z + 128) % 256 - 128

theorem i8wrap_eq_self {z : Int} (h1 : -128 ≤ z) (h2 : z < 128) :
    i8wrap z = z := by
  unfold i8wrap
  omega

/-- Step 1 of `as_radix_16`: split each byte into its low and high nibble,
`output[2*i] = bytes[i] & 15`, `output[2*i+1] = (bytes[i] >> 4) & 15`. -/
def toNibbles : List Nat → List Int
  | [] => []
  | b :: rest =>
    (((b >>> 0) &&& 15 : Nat) : Int) :: (((b >>> 4) &&& 15 : Nat) : Int) ::
      toNibbles rest

/-- Weighted digit sum `Σ dᵢ · baseⁱ` of a digit list. -/
def wsumI (base : Int) : List Int → Int
  | [] => 0
  | d :: rest => d + base * wsumI base rest

@[simp] theorem wsumI_nil (base : Int) : wsumI base [] = 0 := rfl

@[simp] theorem wsumI_cons (base d : Int) (l : List Int) :
    wsumI base (d :: l) = d + base * wsumI base l := rfl

theorem wsumI_set (base : Int) (l : List Int) (i : Nat) (x : Int)
    (hi : i < l.length) :
    wsumI base (l.set i x) = wsumI base l + base ^ i * (x - l.getD i 0) := by
  induction l generalizing i with
  | nil => simp at hi
  | cons d rest ih =>
    cases i with
    | zero => simp; ring
    | succ i =>
      have hi' : i < rest.length := by simpa using hi
      simp only [List.set_cons_succ, wsumI_cons, List.getD_cons_succ,
        ih i hi', pow_succ]
      ring

theorem wsumI_toNibbles (l : List Nat) (h : isBytes l) :
    wsumI 16 (toNibbles l) = (bytesToNat l : Int) := by
  induction l with
  | nil => simp [toNibbles]
  | cons b rest ih =>
    have hb : b < 256 := h b (List.mem_cons_self b rest)
    have hrest : isBytes rest := fun x hx => h x (List.mem_cons_of_mem b hx)
    have hlo : (b >>> 0) &&& 15 = b % 16 := by
      rw [Nat.shiftRight_zero]
      exact Nat.and_pow_two_sub_one_eq_mod b 4
    have hhi : (b >>> 4) &&& 15 = b / 16 := by
      rw [Nat.shiftRight_eq_div_pow]
      rw [show (15 : Nat) = 2 ^ 4 - 1 from rfl,
        Nat.and_pow_two_sub_one_eq_mod]
      exact Nat.mod_eq_of_lt (by omega)
    simp only [toNibbles, wsumI_cons, ih hrest, bytesToNat_cons, hlo, hhi]
    push_cast
    omega

@[simp] theorem length_toNibbles (l : List Nat) :
    (toNibbles l).length = 2 * l.length := by
  induction l with
  | nil => rfl
  | cons b rest ih => simp [toNibbles, ih]; omega

theorem toNibbles_nonneg (l : List Nat) :
    ∀ d ∈ toNibbles l, 0 ≤ d ∧ d ≤ 15 := by
  induction l with
  | nil => intro d hd; simp [toNibbles] at hd
  | cons b rest ih =>
    intro d hd
    simp only [toNibbles, List.mem_cons] at hd
    rcases hd with rfl | rfl | hd
    · have := Nat.and_le_right (n := b >>> 0) (m := 15)
      constructor <;> [positivity; exact_mod_cast this]
    · have := Nat.and_le_right (n := b >>> 4) (m := 15)
      constructor <;> [positivity; exact_mod_cast this]
    · exact ih d hd

theorem toNibbles_getD (l : List Nat) (i : Nat) (hi : i < l.length) :
    (toNibbles l).getD (2 * i) 0 = ((l.getD i 0 &&& 15 : Nat) : Int) ∧
    (toNibbles l).getD (2 * i + 1) 0 =
      (((l.getD i 0 >>> 4) &&& 15 : Nat) : Int) := by
  induction l generalizing i with
  | nil => simp at hi
  | cons b rest ih =>
    cases i with
    | zero => simp [toNibbles, Nat.shiftRight_zero]
    | succ i =>
      have hi' : i < rest.length := by simpa using hi
      have h2 : 2 * (i + 1) = 2 * i + 1 + 1 := by ring
      have h3 : 2 * (i + 1) + 1 = 2 * i + 1 + 1 + 1 := by ring
      rw [h3, h2]
      simp only [toNibbles, List.getD_cons_succ, List.getD_cons_succ]
      exact ih i hi'

/-- One iteration of step 2 of `as_radix_16`:
`carry = (output[i] + 8) >> 4; output[i] -= carry << 4;
output[i+1] += carry` — each `i8` operation wrapped explicitly. -/
def radixStep (out : List Int) (i : Nat) : List Int :=
  let carry := Int.fdiv (i8wrap (out.getD i 0 + 8)) 16
  let out1 := out.set i (i8wrap (out.getD i 0 - i8wrap (carry * 16)))
  out1.set (i + 1) (i8wrap (out1.getD (i + 1) 0 + carry))

/-- The `for i in 0..63` recentering loop of `as_radix_16`, with the
number of remaining iterations as an explicit structural counter. -/
def recenterLoop : List Int → Nat → Nat → List Int
  | out, _, 0 => out
  | out, i, steps + 1 => recenterLoop (radixStep out i) (i + 1) steps

/-- `Scalar::as_radix_16` of `scalar_verus.rs`: split into nibbles, then
recenter digits 0..62 from `[0,16)` into `[-8,8)`. -/
def Scalar.as_radix_16 (s : Scalar) : List Int :=
  recenterLoop (toNibbles s.bytes) 0 63

theorem fdiv16_bounds (a : Int) :
    16 * Int.fdiv a 16 ≤ a ∧ a < 16 * Int.fdiv a 16 + 16 := by
  have h := Int.fdiv_add_fmod a 16
  have h1 := Int.fmod_nonneg' a (b := 16) (by norm_num)
  have h2 := Int.fmod_lt_of_pos a (b := 16) (by norm_num)
  omega

/-- Loop invariant for `recenterLoop`: digits before `i` are recentered,
digit `i` may have absorbed one carry, digits after `i` are untouched
nibbles (the one at index 63 at most 7), and the radix-16 weighted sum is
preserved. -/
theorem recenterLoop_spec (X : Int) :
    ∀ (steps : Nat) (out : List Int) (i : Nat),
    i + steps = 63 →
    out.length = 64 →
    (∀ j, j < i → -8 ≤ out.getD j 0 ∧ out.getD j 0 < 8) →
    (0 ≤ out.getD i 0 ∧ out.getD i 0 ≤ (if i = 63 then 8 else 16)) →
    (∀ j, i < j → 0 ≤ out.getD j 0 ∧
      out.getD j 0 ≤ (if j = 63 then 7 else 15)) →
    wsumI 16 out = X →
    (recenterLoop out i steps).length = 64 ∧
    (∀ j, j < 63 → -8 ≤ (recenterLoop out i steps).getD j 0 ∧
      (recenterLoop out i steps).getD j 0 < 8) ∧
    (-8 ≤ (recenterLoop out i steps).getD 63 0 ∧
      (recenterLoop out i steps).getD 63 0 ≤ 8) ∧
    wsumI 16 (recenterLoop out i steps) = X := by
  intro steps
  induction steps with
  | zero =>
    intro out i hi hlen hprev hcur hrest hsum
    have hi63 : i = 63 := by omega
    subst hi63
    refine ⟨hlen, ?_, ?_, hsum⟩
    · intro j hj; exact hprev j hj
    · show -8 ≤ out.getD 63 0 ∧ out.getD 63 0 ≤ 8
      simp only [List.getD_eq_getElem?_getD]
      simp at hcur
      omega
  | succ steps ih =>
    intro out i hi hlen hprev hcur hrest hsum
    have hi62 : i ≤ 62 := by omega
    have hilen : i < out.length := by omega
    have hi1len : i + 1 < out.length := by omega
    set d := out.getD i 0 with hd
    have hd0 : 0 ≤ d := hcur.1
    have hd16 : d ≤ 16 := by
      have := hcur.2
      split at this <;> omega
    -- the carry is 0 or 1 and the recentring is exact
    have hw8 : i8wrap (d + 8) = d + 8 := i8wrap_eq_self (by omega) (by omega)
    set c := Int.fdiv (i8wrap (d + 8)) 16 with hc
    have hcb := fdiv16_bounds (d + 8)
    rw [hw8] at hc
    have hc01 : c = 0 ∨ c = 1 := by omega
    have hwc : i8wrap (c * 16) = c * 16 := by
      rcases hc01 with h | h <;> rw [h] <;> decide
    have hnew : i8wrap (d - i8wrap (c * 16)) = d - 16 * c := by
      rw [hwc, show d - c * 16 = d - 16 * c by ring]
      exact i8wrap_eq_self (by omega) (by omega)
    -- the next digit absorbs the carry without wrapping
    have hnextv := hrest (i + 1) (by omega)
    set e := out.getD (i + 1) 0 with he
    have hwe : i8wrap (e + c) = e + c := by
      have h1 : 0 ≤ e := hnextv.1
      have h2 : e ≤ 15 := by
        have := hnextv.2
        split at this <;> omega
      exact i8wrap_eq_self (by omega) (by omega)
    -- unfold one loop iteration
    have hstep : radixStep out i =
        (out.set i (d - 16 * c)).set (i + 1) (e + c) := by
      simp only [radixStep]
      rw [← hd, hw8, ← hc, hnew, getD_set_ne _ _ _ (by omega : i ≠ i + 1),
        ← he, hwe]
    have hunfold : recenterLoop out i (steps + 1) =
        recenterLoop (radixStep out i) (i + 1) steps := rfl
    have hout1len : ((out.set i (d - 16 * c)).set (i + 1) (e + c)).length
        = 64 := by simp [hlen]
    rw [hunfold, hstep]
    -- invariant for the new state
    apply ih ((out.set i (d - 16 * c)).set (i + 1) (e + c)) (i + 1)
      (by omega) hout1len
    · -- digits before i+1 are recentered
      intro j hj
      rcases Nat.lt_or_ge j i with hji | hji
      · rw [getD_set_ne _ _ _ (by omega), getD_set_ne _ _ _ (by omega)]
        exact hprev j hji
      · have hji2 : j = i := by omega
        subst hji2
        rw [getD_set_ne _ _ _ (by omega),
          getD_set_self _ _ _ (by simpa using hilen)]
        omega
    · -- digit i+1 absorbed at most one carry
      rw [getD_set_self _ _ _ (by simpa [hlen] using hi1len)]
      constructor
      · omega
      · by_cases h63 : i + 1 = 63
        · have := hnextv.2
          rw [if_pos h63] at this ⊢
          omega
        · have := hnextv.2
          rw [if_neg h63] at this ⊢
          omega
    · -- digits after i+1 are untouched
      intro j hj
      rw [getD_set_ne _ _ _ (by omega), getD_set_ne _ _ _ (by omega)]
      exact hrest j (by omega)
    · -- the weighted sum is preserved
      have hs1 := wsumI_set 16 out i (d - 16 * c) hilen
      have hs2 := wsumI_set 16 (out.set i (d - 16 * c)) (i + 1) (e + c)
        (by simpa using hi1len)
      have hget : (out.set i (d - 16 * c)).getD (i + 1) 0 = e := by
        rw [getD_set_ne _ _ _ (by omega)]
      rw [hs2, hget, hs1, ← hd, hsum, pow_succ]
      ring

theorem getD_mem {α : Type} (l : List α) (j : Nat) (d : α)
    (h : j < l.length) : l.getD j d ∈ l := by
  rw [List.getD_eq_getElem?_getD, List.getElem?_eq_getElem h]
  exact List.getElem_mem h

/-- **C9.** For a scalar whose top bit is 0, `as_radix_16` returns 64
signed digits with `-8 ≤ aᵢ < 8` for `i < 63` and `-8 ≤ a₆₃ ≤ 8` whose
radix-16 weighted sum is the scalar's integer value. -/
theorem as_radix_16_spec (s : Scalar) (hlen : s.bytes.length = 32)
    (hb : isBytes s.bytes) (htop : s.bytes.getD 31 0 < 128) :
    (Scalar.as_radix_16 s).length = 64 ∧
    (∀ i, i < 63 → -8 ≤ (Scalar.as_radix_16 s).getD i 0 ∧
      (Scalar.as_radix_16 s).getD i 0 < 8) ∧
    (-8 ≤ (Scalar.as_radix_16 s).getD 63 0 ∧
      (Scalar.as_radix_16 s).getD 63 0 ≤ 8) ∧
    wsumI 16 (Scalar.as_radix_16 s) = (toNatScalar s : Int) := by
  have hnlen : (toNibbles s.bytes).length = 64 := by
    rw [length_toNibbles, hlen]
  have h := recenterLoop_spec (toNatScalar s : Int) 63 (toNibbles s.bytes) 0
    (by omega) hnlen
    (by intro j hj; omega)
    ?_ ?_ (wsumI_toNibbles s.bytes hb)
  · exact ⟨h.1, fun i hi => h.2.1 i hi, h.2.2.1, h.2.2.2⟩
  · have hmem := getD_mem (toNibbles s.bytes) 0 0 (by omega)
    have := toNibbles_nonneg s.bytes _ hmem
    rw [if_neg (by omega)]
    omega
  · intro j hj
    rcases Nat.lt_or_ge j 64 with hj64 | hj64
    · have hmem := getD_mem (toNibbles s.bytes) j 0 (by omega)
      have hbound := toNibbles_nonneg s.bytes _ hmem
      refine ⟨hbound.1, ?_⟩
      by_cases h63 : j = 63
      · subst h63
        have h31 : (31 : Nat) < s.bytes.length := by omega
        have hnib := (toNibbles_getD s.bytes 31 h31).2
        rw [if_pos rfl]
        have : (toNibbles s.bytes).getD 63 0 =
            (((s.bytes.getD 31 0 >>> 4) &&& 15 : Nat) : Int) := hnib
        rw [this]
        have hdiv : s.bytes.getD 31 0 >>> 4 &&& 15 ≤ s.bytes.getD 31 0 >>> 4 :=
          Nat.and_le_left
        have hsr : s.bytes.getD 31 0 >>> 4 = s.bytes.getD 31 0 / 16 := by
          rw [Nat.shiftRight_eq_div_pow]
        have : s.bytes.getD 31 0 >>> 4 &&& 15 ≤ 7 := by omega
        exact_mod_cast this
      · rw [if_neg h63]; exact hbound.2
    · rw [List.getD_eq_getElem?_getD, List.getElem?_eq_none (by omega)]
      split <;> norm_num

/-- Closed-form witness for `as_radix_16_spec` at a concrete input. -/
theorem as_radix_16_spec_witness :
    (Scalar.as_radix_16 ⟨List.replicate 32 0⟩).length = 64 ∧
    wsumI 16 (Scalar.as_radix_16 ⟨List.replicate 32 0⟩) =
      (toNatScalar ⟨List.replicate 32 0⟩ : Int) := by
  have h := as_radix_16_spec ⟨List.replicate 32 0⟩ (by decide) (by decide)
    (by decide)
  exact ⟨h.1, h.2.2.2⟩

/-! ## Windowed non-adjacent form (`Scalar::non_adjacent_form`) -/

/-- One 64-bit little-endian word of the scalar, word `i` being assembled
from bytes `8i..8i+8` (`value += bytes[8i+j] << (8j)`). -/
def loadU64 (bytes : List Nat) (i : Nat) : Nat :=
  bytesToNat ((bytes.drop (8 * i)).take 8)

/-- The `x_u64` buffer of `non_adjacent_form`: `[0u64; 5]` whose first four
words are loaded from the 32 scalar bytes and whose fifth stays 0. -/
def xU64 (bytes : List Nat) : List Nat :=
  [loadU64 bytes 0, loadU64 bytes 1, loadU64 bytes 2, loadU64 bytes 3, 0]

/-- The bit buffer of `non_adjacent_form` at position `pos`: either a
single-word read or a combination of two adjacent words, the `u64` left
shift truncated mod `2^64` as in Rust. -/
def bitBuf (xu : List Nat) (w pos : Nat) : Nat :=
  let u64_idx := pos / 64
  let bit_idx := pos % 64
  if bit_idx < 64 - w then
    xu.getD u64_idx 0 >>> bit_idx
  else
    (xu.getD u64_idx 0 >>> bit_idx) |||
      ((xu.getD (1 + u64_idx) 0 <<< (64 - bit_idx)) % 2 ^ 64)

/-- Truncating cast of a machine integer to `i8`, as an `Int` in
`[-128, 128)` (`window as i8`, `width as i8`). -/
def i8cast (n : Nat) : Int := i8wrap (n : Int)

/-- The `while pos < 256` loop of `non_adjacent_form`.  `pos` advances by
at least 1 per iteration, so 256 fuel steps always reach `pos ≥ 256`; the
counter only bounds the iteration count and never cuts the loop short. -/
def nafLoop (xu : List Nat) (w : Nat) :
    Nat → List Int → Nat → Nat → List Int
  | 0, naf, _, _ => naf
  | fuel + 1, naf, pos, carry =>
    if pos < 256 then
      let width := 1 <<< w
      let window_mask := width - 1
      let window := carry + (bitBuf xu w pos &&& window_mask)
      if window &&& 1 = 0 then
        nafLoop xu w fuel naf (pos + 1) carry
      else if window < width / 2 then
        nafLoop xu w fuel (naf.set pos (i8cast window)) (pos + w) 0
      else
        nafLoop xu w fuel
          (naf.set pos (i8wrap (i8cast window - i8cast width))) (pos + w) 1
    else naf

/-- `Scalar::non_adjacent_form` of `scalar_verus.rs`. -/
def Scalar.non_adjacent_form (s : Scalar) (w : Nat) : List Int :=
  nafLoop (xU64 s.bytes) w 256 (List.replicate 256 0) 0 0

theorem loadU64_eq (bytes : List Nat) (hb : isBytes bytes) (i : Nat) :
    loadU64 bytes i = bytesToNat bytes / 2 ^ (64 * i) % 2 ^ 64 := by
  have hdropb : isBytes (bytes.drop (8 * i)) :=
    fun b hbm => hb b (List.mem_of_mem_drop hbm)
  unfold loadU64
  rw [bytesToNat_take _ _ hdropb, bytesToNat_drop _ _ hb]
  have h1 : (256 : Nat) ^ (8 * i) = 2 ^ (64 * i) := by
    rw [show (256 : Nat) = 2 ^ 8 from rfl, ← pow_mul]
    ring_nf
  have h2 : (256 : Nat) ^ 8 = 2 ^ 64 := by norm_num
  rw [h1, h2]

theorem xU64_getD (bytes : List Nat) (hlen : bytes.length = 32)
    (hb : isBytes bytes) (u : Nat) (hu : u ≤ 4) :
    (xU64 bytes).getD u 0 = bytesToNat bytes / 2 ^ (64 * u) % 2 ^ 64 := by
  have hx32 : bytesToNat bytes < 2 ^ 256 := by
    have := bytesToNat_lt bytes hb
    rw [hlen] at this
    calc bytesToNat bytes < 256 ^ 32 := this
      _ = 2 ^ 256 := by norm_num
  interval_cases u
  · exact loadU64_eq bytes hb 0
  · exact loadU64_eq bytes hb 1
  · exact loadU64_eq bytes hb 2
  · exact loadU64_eq bytes hb 3
  · show (0 : Nat) = bytesToNat bytes / 2 ^ 256 % 2 ^ 64
    rw [Nat.div_eq_of_lt hx32]
    rfl

theorem bitBuf_eq_lo (xu : List Nat) (w pos : Nat)
    (h : pos % 64 < 64 - w) :
    bitBuf xu w pos = xu.getD (pos / 64) 0 >>> (pos % 64) := by
  simp [bitBuf, h]

theorem bitBuf_eq_hi (xu : List Nat) (w pos : Nat)
    (h : ¬ pos % 64 < 64 - w) :
    bitBuf xu w pos = (xu.getD (pos / 64) 0 >>> (pos % 64)) |||
      ((xu.getD (1 + pos / 64) 0 <<< (64 - pos % 64)) % 2 ^ 64) := by
  simp [bitBuf, h]

/-- Bridge lemma: the masked bit buffer read from the `u64` words equals
the `w`-bit window of the scalar value at bit position `pos`. -/
theorem bitBuf_and_mask (bytes : List Nat) (hlen : bytes.length = 32)
    (hb : isBytes bytes) (w pos : Nat) (hw2 : 2 ≤ w) (hw8 : w ≤ 8)
    (hpos : pos < 256) :
    bitBuf (xU64 bytes) w pos &&& (2 ^ w - 1) =
      bytesToNat bytes / 2 ^ pos % 2 ^ w := by
  set x := bytesToNat bytes with hxdef
  set u := pos / 64 with hu
  set b := pos % 64 with hbdef
  have hposeq : pos = 64 * u + b := by omega
  have hu3 : u ≤ 3 := by omega
  have hb64 : b < 64 := by omega
  have hXu := xU64_getD bytes hlen hb u (by omega)
  have hXu1 := xU64_getD bytes hlen hb (1 + u) (by omega)
  set T := x / 2 ^ (64 * u) with hT
  set Y := x / 2 ^ (64 * (1 + u)) with hY
  set Xu := T % 2 ^ 64 with hXudef
  have hTY : Y = T / 2 ^ 64 := by
    rw [hY, hT, Nat.div_div_eq_div_mul, ← pow_add]
    congr 2
    ring
  have hTsum : Xu + 2 ^ 64 * Y = T := by
    rw [hXudef, hTY]
    exact Nat.mod_add_div T (2 ^ 64)
  have hxpos : x / 2 ^ pos = T / 2 ^ b := by
    rw [hT, Nat.div_div_eq_div_mul, ← pow_add, hposeq]
  have h2b : (2 : Nat) ^ 64 = 2 ^ b * 2 ^ (64 - b) := by
    rw [← pow_add]
    congr 1
    omega
  have hXulth : Xu < 2 ^ 64 := Nat.mod_lt _ (by positivity)
  set M := Xu / 2 ^ b with hM
  have hMlt : M < 2 ^ (64 - b) := by
    rw [hM]
    apply Nat.div_lt_iff_lt_mul (by positivity) |>.mpr
    calc Xu < 2 ^ 64 := hXulth
      _ = 2 ^ (64 - b) * 2 ^ b := by rw [← pow_add]; congr 1; omega
  have hXusplit := Nat.div_add_mod Xu (2 ^ b)
  rw [← hM] at hXusplit
  have hTeq : T = 2 ^ b * (M + 2 ^ (64 - b) * Y) + Xu % 2 ^ b := by
    rw [Nat.mul_add, ← Nat.mul_assoc, ← h2b]
    omega
  have hsplit : T / 2 ^ b = M + 2 ^ (64 - b) * Y := by
    rw [hTeq, Nat.mul_add_div (by positivity),
      Nat.div_eq_of_lt (Nat.mod_lt _ (by positivity))]
    omega
  by_cases hcase : b < 64 - w
  · -- single-word window
    rw [bitBuf_eq_lo _ _ _ (by rw [← hbdef]; omega), ← hu, ← hbdef, hXu,
      Nat.shiftRight_eq_div_pow, ← hM,
      Nat.and_pow_two_sub_one_eq_mod, hxpos, hsplit]
    have hsplit2 : (2 : Nat) ^ (64 - b) = 2 ^ w * 2 ^ (64 - b - w) := by
      rw [← pow_add]
      congr 1
      omega
    rw [hsplit2, Nat.mul_assoc, Nat.add_mul_mod_self_left]
  · -- two-word window
    rw [bitBuf_eq_hi _ _ _ (by rw [← hbdef]; omega), ← hu, ← hbdef, hXu,
      hXu1, Nat.shiftRight_eq_div_pow, ← hM,
      Nat.shiftLeft_eq]
    have hshl : Y % 2 ^ 64 * 2 ^ (64 - b) % 2 ^ 64 =
        2 ^ (64 - b) * (Y % 2 ^ b) := by
      conv_lhs => rw [Nat.mul_comm, h2b, Nat.mul_comm (2 ^ b) (2 ^ (64 - b)),
        Nat.mul_mod_mul_left]
      congr 1
      rw [Nat.mod_mod_of_dvd]
      exact dvd_mul_left (2 ^ b) (2 ^ (64 - b))
    rw [hshl]
    have horadd : M ||| 2 ^ (64 - b) * (Y % 2 ^ b) =
        M + 2 ^ (64 - b) * (Y % 2 ^ b) := by
      rw [Nat.lor_comm, ← Nat.mul_add_lt_is_or hMlt, Nat.add_comm]
    rw [horadd, Nat.and_pow_two_sub_one_eq_mod, hxpos, hsplit]
    have hYsplit := Nat.div_add_mod Y (2 ^ b)
    have hRHS : M + 2 ^ (64 - b) * Y =
        M + 2 ^ (64 - b) * (Y % 2 ^ b) + 2 ^ w * (2 ^ (64 - w) * (Y / 2 ^ b)) := by
      have h64 : (2 : Nat) ^ w * 2 ^ (64 - w) = 2 ^ 64 := by
        rw [← pow_add]
        congr 1
        omega
      have hexp : 2 ^ (64 - b) * Y =
          2 ^ (64 - b) * (Y % 2 ^ b) + 2 ^ 64 * (Y / 2 ^ b) := by
        calc 2 ^ (64 - b) * Y
            = 2 ^ (64 - b) * (2 ^ b * (Y / 2 ^ b) + Y % 2 ^ b) := by
              rw [hYsplit]
          _ = 2 ^ (64 - b) * (Y % 2 ^ b) +
              (2 ^ (64 - b) * 2 ^ b) * (Y / 2 ^ b) := by ring
          _ = 2 ^ (64 - b) * (Y % 2 ^ b) + 2 ^ 64 * (Y / 2 ^ b) := by
              rw [← pow_add, Nat.sub_add_cancel (Nat.le_of_lt hb64)]
      rw [hexp, ← Nat.mul_assoc, h64]
      ring
    rw [hRHS, Nat.add_mul_mod_self_left]

theorem i8cast_eq_of_lt {n : Nat} (h : n < 128) : i8cast n = (n : Int) := by
  unfold i8cast
  exact i8wrap_eq_self (by omega) (by omega)

set_option maxRecDepth 8192 in
/-- The wrapped `i8` subtraction `(window as i8).wrapping_sub(width as i8)`
computes exactly `window - 2^w` on the values the odd branch feeds it. -/
theorem naf_digit_sub (w n : Nat) (hw2 : 2 ≤ w) (hw8 : w ≤ 8)
    (hlo : 2 ^ (w - 1) ≤ n) (hhi : n < 2 ^ w) :
    i8wrap (i8cast n - i8cast (1 <<< w)) = (n : Int) - 2 ^ w := by
  have key : ∀ w2 : Nat, w2 < 9 → 2 ≤ w2 → ∀ n2 : Nat, n2 < 256 →
      2 ^ (w2 - 1) ≤ n2 → n2 < 2 ^ w2 →
      i8wrap (i8cast n2 - i8cast (1 <<< w2)) = (n2 : Int) - 2 ^ w2 := by
    decide
  exact key w (by omega) hw2 n
    (lt_of_lt_of_le hhi (Nat.pow_le_pow_right (by norm_num) hw8)) hlo hhi

theorem getD_replicate_zero (n j : Nat) :
    (List.replicate n (0 : Int)).getD j 0 = 0 := by
  rw [List.getD_eq_getElem?_getD]
  rcases Nat.lt_or_ge j n with h | h
  · rw [List.getElem?_eq_getElem (by simpa using h)]
    simp
  · rw [List.getElem?_eq_none (by simpa using h)]
    rfl

theorem wsumI_replicate_zero (base : Int) (n : Nat) :
    wsumI base (List.replicate n 0) = 0 := by
  induction n with
  | zero => rfl
  | succ n ih => simp [List.replicate_succ, ih]

theorem one_shiftLeft_eq (w : Nat) : (1 : Nat) <<< w = 2 ^ w := by
  rw [Nat.shiftLeft_eq, Nat.one_mul]

theorem two_pow_div_two (w : Nat) (hw : 1 ≤ w) :
    2 ^ w / 2 = 2 ^ (w - 1) := by
  conv_lhs => rw [show w = (w - 1) + 1 by omega, pow_succ,
    Nat.mul_div_cancel _ (by norm_num)]

theorem nafLoop_zero_fuel (xu : List Nat) (w : Nat) (naf : List Int)
    (pos carry : Nat) : nafLoop xu w 0 naf pos carry = naf := rfl

theorem nafLoop_exit (xu : List Nat) (w f : Nat) (naf : List Int)
    (pos carry : Nat) (hp : ¬ pos < 256) :
    nafLoop xu w (f + 1) naf pos carry = naf := by
  simp [nafLoop, hp]

theorem nafLoop_succ (xu : List Nat) (w f : Nat) (naf : List Int)
    (pos carry : Nat) (hp : pos < 256) :
    nafLoop xu w (f + 1) naf pos carry =
      if (carry + (bitBuf xu w pos &&& (1 <<< w - 1))) &&& 1 = 0 then
        nafLoop xu w f naf (pos + 1) carry
      else if carry + (bitBuf xu w pos &&& (1 <<< w - 1)) < 1 <<< w / 2 then
        nafLoop xu w f
          (naf.set pos (i8cast (carry + (bitBuf xu w pos &&& (1 <<< w - 1)))))
          (pos + w) 0
      else
        nafLoop xu w f
          (naf.set pos (i8wrap
            (i8cast (carry + (bitBuf xu w pos &&& (1 <<< w - 1))) -
              i8cast (1 <<< w))))
          (pos + w) 1 := by
  simp only [nafLoop, if_pos hp]

/-- Invariant of the wNAF loop: once the position passes 256 the carry is
0, digits below `pos` are final, digits from `pos` on are still 0, and the
binary weighted sum accounts for the value bits not yet consumed. -/
theorem nafLoop_spec (x w : Nat) (hw2 : 2 ≤ w) (hw8 : w ≤ 8)
    (hx : x < 2 ^ 255) (xu : List Nat)
    (hxu : ∀ p, p < 256 → bitBuf xu w p &&& (2 ^ w - 1) = x / 2 ^ p % 2 ^ w) :
    ∀ (fuel : Nat) (naf : List Int) (pos carry : Nat),
    256 ≤ fuel + pos →
    carry ≤ 1 →
    naf.length = 256 →
    (256 ≤ pos → carry = 0) →
    (∀ j, pos ≤ j → naf.getD j 0 = 0) →
    (∀ j, naf.getD j 0 ≠ 0 →
      Odd (naf.getD j 0) ∧ |naf.getD j 0| < 2 ^ (w - 1) ∧ j + w ≤ pos) →
    (∀ i j, naf.getD i 0 ≠ 0 → naf.getD j 0 ≠ 0 → i < j → i + w ≤ j) →
    wsumI 2 naf + 2 ^ pos * ((carry : Int) + ((x / 2 ^ pos : Nat) : Int)) =
      (x : Int) →
    (nafLoop xu w fuel naf pos carry).length = 256 ∧
    wsumI 2 (nafLoop xu w fuel naf pos carry) = (x : Int) ∧
    (∀ j, (nafLoop xu w fuel naf pos carry).getD j 0 ≠ 0 →
      Odd ((nafLoop xu w fuel naf pos carry).getD j 0) ∧
      |(nafLoop xu w fuel naf pos carry).getD j 0| < 2 ^ (w - 1)) ∧
    (∀ i j, (nafLoop xu w fuel naf pos carry).getD i 0 ≠ 0 →
      (nafLoop xu w fuel naf pos carry).getD j 0 ≠ 0 → i < j →
      i + w ≤ j) := by
  -- conclusion at an exit state (`pos ≥ 256`)
  have exit_case : ∀ (naf : List Int) (pos carry : Nat),
      256 ≤ pos → carry ≤ 1 → naf.length = 256 → (256 ≤ pos → carry = 0) →
      (∀ j, naf.getD j 0 ≠ 0 →
        Odd (naf.getD j 0) ∧ |naf.getD j 0| < 2 ^ (w - 1) ∧ j + w ≤ pos) →
      (∀ i j, naf.getD i 0 ≠ 0 → naf.getD j 0 ≠ 0 → i < j → i + w ≤ j) →
      wsumI 2 naf + 2 ^ pos * ((carry : Int) + ((x / 2 ^ pos : Nat) : Int)) =
        (x : Int) →
      naf.length = 256 ∧ wsumI 2 naf = (x : Int) ∧
      (∀ j, naf.getD j 0 ≠ 0 →
        Odd (naf.getD j 0) ∧ |naf.getD j 0| < 2 ^ (w - 1)) ∧
      (∀ i j, naf.getD i 0 ≠ 0 → naf.getD j 0 ≠ 0 → i < j → i + w ≤ j) := by
    intro naf pos carry hpos hc1 hlen hexit hdig hsp hsum
    have hc0 : carry = 0 := hexit hpos
    have hdiv0 : x / 2 ^ pos = 0 :=
      Nat.div_eq_of_lt (lt_of_lt_of_le hx
        (Nat.pow_le_pow_right (by norm_num) (by omega)))
    rw [hc0, hdiv0] at hsum
    push_cast at hsum
    refine ⟨hlen, by linarith, fun j hj => ⟨(hdig j hj).1, (hdig j hj).2.1⟩,
      hsp⟩
  intro fuel
  induction fuel with
  | zero =>
    intro naf pos carry hfuel hc1 hlen hexit hzero hdig hsp hsum
    rw [nafLoop_zero_fuel]
    exact exit_case naf pos carry (by omega) hc1 hlen hexit hdig hsp hsum
  | succ f ih =>
    intro naf pos carry hfuel hc1 hlen hexit hzero hdig hsp hsum
    by_cases hp : pos < 256
    · -- an actual loop iteration
      set q := x / 2 ^ pos with hq
      have hwin : bitBuf xu w pos &&& (1 <<< w - 1) = q % 2 ^ w := by
        rw [one_shiftLeft_eq]
        exact hxu pos hp
      have hqm : q % 2 ^ w < 2 ^ w := Nat.mod_lt _ (by positivity)
      have h2wpos : (0 : Nat) < 2 ^ w := by positivity
      have h2weven : 2 ^ w % 2 = 0 := by
        rw [show w = (w - 1) + 1 by omega, pow_succ]
        omega
      have h2w1even : 2 ^ (w - 1) % 2 = 0 := by
        rw [show w - 1 = (w - 2) + 1 by omega, pow_succ]
        omega
      have h2wsplit : 2 ^ w = 2 * 2 ^ (w - 1) := by
        conv_lhs => rw [show w = (w - 1) + 1 by omega, pow_succ]
        ring
      rw [nafLoop_succ xu w f naf pos carry hp, hwin, Nat.and_one_is_mod]
      by_cases heven : (carry + q % 2 ^ w) % 2 = 0
      · -- even window: keep the carry, advance one bit
        rw [if_pos heven]
        have hq2 : x / 2 ^ (pos + 1) = q / 2 := by
          rw [hq, pow_succ, ← Nat.div_div_eq_div_mul]
        have hqpar : q % 2 ^ w % 2 = q % 2 := by
          apply Nat.mod_mod_of_dvd
          exact dvd_pow_self 2 (by omega)
        apply ih naf (pos + 1) carry (by omega) hc1 hlen
        · -- carry clears at the top bit
          intro h256
          have hpos255 : pos = 255 := by omega
          have : q = 0 := by
            rw [hq, hpos255]
            exact Nat.div_eq_of_lt hx
          omega
        · intro j hj
          exact hzero j (by omega)
        · intro j hj
          obtain ⟨h1, h2, h3⟩ := hdig j hj
          exact ⟨h1, h2, by omega⟩
        · exact hsp
        · -- sum: halve the remaining value
          have hkey : carry + q = 2 * (carry + q / 2) := by omega
          have hkeyI : (carry : Int) + ((q : Nat) : Int) =
              2 * ((carry : Int) + ((q / 2 : Nat) : Int)) := by
            exact_mod_cast hkey
          rw [hq2]
          calc wsumI 2 naf +
              2 ^ (pos + 1) * ((carry : Int) + ((q / 2 : Nat) : Int))
              = wsumI 2 naf +
                2 ^ pos * (2 * ((carry : Int) + ((q / 2 : Nat) : Int))) := by
                rw [pow_succ]; ring
            _ = wsumI 2 naf +
                2 ^ pos * ((carry : Int) + ((q : Nat) : Int)) := by
                rw [← hkeyI]
            _ = (x : Int) := hsum
      · -- odd window: emit a digit, advance w bits
        rw [if_neg heven]
        have hodd : (carry + q % 2 ^ w) % 2 = 1 := by omega
        set window := carry + q % 2 ^ w with hwindef
        have hwlt : window ≤ 2 ^ w := by omega
        have hwne : window ≠ 2 ^ w := by omega
        have hwlt2 : window < 2 ^ w := by omega
        have hnafpos : naf.getD pos 0 = 0 := hzero pos (le_refl pos)
        have hposlen : pos < naf.length := by omega
        have hq2w : x / 2 ^ (pos + w) = q / 2 ^ w := by
          rw [hq, pow_add, ← Nat.div_div_eq_div_mul]
        have hqsplit : q % 2 ^ w + 2 ^ w * (q / 2 ^ w) = q :=
          Nat.mod_add_div q (2 ^ w)
        have hqsplitI : ((q % 2 ^ w : Nat) : Int) +
            (2 : Int) ^ w * ((q / 2 ^ w : Nat) : Int) = ((q : Nat) : Int) := by
          exact_mod_cast hqsplit
        -- facts shared by both digit branches, for a digit d stored at pos
        have hset_wsum : ∀ d : Int, wsumI 2 (naf.set pos d) =
            wsumI 2 naf + 2 ^ pos * d := by
          intro d
          rw [wsumI_set 2 naf pos d hposlen, hnafpos]
          ring
        have hset_len : ∀ d : Int, (naf.set pos d).length = 256 := by
          intro d; simp [hlen]
        have hset_zero : ∀ d : Int, ∀ j, pos + w ≤ j →
            (naf.set pos d).getD j 0 = 0 := by
          intro d j hj
          rw [getD_set_ne _ _ _ (by omega)]
          exact hzero j (by omega)
        have hset_sp : ∀ d : Int, d ≠ 0 →
            (∀ i j, (naf.set pos d).getD i 0 ≠ 0 →
              (naf.set pos d).getD j 0 ≠ 0 → i < j → i + w ≤ j) := by
          intro d hd i j hi hj hij
          by_cases hipos : i = pos
          · by_cases hjpos : j = pos
            · omega
            · rw [getD_set_ne _ _ _ (Ne.symm hjpos)] at hj
              have := (hdig j hj).2.2
              omega
          · rw [getD_set_ne _ _ _ (Ne.symm hipos)] at hi
            by_cases hjpos : j = pos
            · have := (hdig i hi).2.2
              omega
            · rw [getD_set_ne _ _ _ (Ne.symm hjpos)] at hj
              exact hsp i j hi hj hij
        have hset_dig : ∀ d : Int, Odd d → |d| < 2 ^ (w - 1) →
            (∀ j, (naf.set pos d).getD j 0 ≠ 0 →
              Odd ((naf.set pos d).getD j 0) ∧
              |(naf.set pos d).getD j 0| < 2 ^ (w - 1) ∧
              j + w ≤ pos + w) := by
          intro d hd1 hd2 j hj
          by_cases hjpos : j = pos
          · subst hjpos
            rw [getD_set_self _ _ _ hposlen] at hj ⊢
            exact ⟨hd1, hd2, by omega⟩
          · rw [getD_set_ne _ _ _ (Ne.symm hjpos)] at hj ⊢
            obtain ⟨h1, h2, h3⟩ := hdig j hj
            exact ⟨h1, h2, by omega⟩
        have hwoddI : ((window : Nat) : Int) % 2 = 1 := by
          omega
        by_cases hhalf : window < 1 <<< w / 2
        · -- positive digit `window`, carry becomes 0
          rw [if_pos hhalf]
          rw [one_shiftLeft_eq, two_pow_div_two w (by omega)] at hhalf
          have hd128 : window < 128 := by
            have : (2 : Nat) ^ (w - 1) ≤ 2 ^ 7 :=
              Nat.pow_le_pow_right (by norm_num) (by omega)
            omega
          have hdcast : i8cast window = ((window : Nat) : Int) :=
            i8cast_eq_of_lt hd128
          have hdodd : Odd (i8cast window) := by
            rw [hdcast, Int.odd_iff]
            omega
          have hdabs : |i8cast window| < 2 ^ (w - 1) := by
            rw [hdcast]
            have h1 : ((window : Nat) : Int) < ((2 ^ (w - 1) : Nat) : Int) := by
              exact_mod_cast hhalf
            rw [abs_of_nonneg (by positivity)]
            push_cast at h1 ⊢
            omega
          apply ih (naf.set pos (i8cast window)) (pos + w) 0
            (by omega) (by omega) (hset_len _) (fun _ => rfl) (hset_zero _)
            (hset_dig _ hdodd hdabs)
            (hset_sp _ (by
              intro h0
              rw [hdcast] at h0
              omega))
          -- the weighted sum
          rw [hset_wsum, hq2w, hdcast]
          have hkey : ((window : Nat) : Int) +
              (2 : Int) ^ w * ((0 : Nat) + ((q / 2 ^ w : Nat) : Int)) =
              (carry : Int) + ((q : Nat) : Int) := by
            rw [hwindef, Nat.cast_add, Nat.cast_zero]
            linear_combination hqsplitI
          calc wsumI 2 naf + 2 ^ pos * ((window : Nat) : Int) +
              2 ^ (pos + w) * ((0 : Nat) + ((q / 2 ^ w : Nat) : Int))
              = wsumI 2 naf + 2 ^ pos * (((window : Nat) : Int) +
                (2 : Int) ^ w * ((0 : Nat) + ((q / 2 ^ w : Nat) : Int))) := by
                rw [pow_add]; push_cast; ring
            _ = wsumI 2 naf +
                2 ^ pos * ((carry : Int) + ((q : Nat) : Int)) := by rw [hkey]
            _ = (x : Int) := hsum
        · -- negative digit `window - 2^w`, carry becomes 1
          rw [if_neg hhalf]
          rw [one_shiftLeft_eq, two_pow_div_two w (by omega)] at hhalf
          push_neg at hhalf
          have hwge : 2 ^ (w - 1) + 1 ≤ window := by omega
          have hdsub : i8wrap (i8cast window - i8cast (1 <<< w)) =
              ((window : Nat) : Int) - 2 ^ w :=
            naf_digit_sub w window hw2 hw8 (by omega) hwlt2
          have h2wI : ((2 ^ w : Nat) : Int) = 2 * ((2 ^ (w - 1) : Nat) : Int) := by
            exact_mod_cast h2wsplit
          have hwinI1 : ((2 ^ (w - 1) : Nat) : Int) + 1 ≤ ((window : Nat) : Int) := by
            exact_mod_cast hwge
          have hwinI2 : ((window : Nat) : Int) < ((2 ^ w : Nat) : Int) := by
            exact_mod_cast hwlt2
          have hdodd : Odd (i8wrap (i8cast window - i8cast (1 <<< w))) := by
            rw [hdsub, Int.odd_iff]
            have : ((2 ^ w : Nat) : Int) % 2 = 0 := by exact_mod_cast h2weven
            push_cast at this ⊢
            omega
          have hdabs : |i8wrap (i8cast window - i8cast (1 <<< w))| <
              2 ^ (w - 1) := by
            rw [hdsub]
            apply abs_lt.mpr
            constructor
            · push_cast at hwinI1 h2wI ⊢
              omega
            · push_cast at hwinI2 h2wI ⊢
              omega
          have hdne : i8wrap (i8cast window - i8cast (1 <<< w)) ≠ 0 := by
            rw [hdsub]
            push_cast at hwinI2 ⊢
            omega
          apply ih (naf.set pos (i8wrap (i8cast window - i8cast (1 <<< w))))
            (pos + w) 1 (by omega) (by omega) (hset_len _) ?_ (hset_zero _)
            (hset_dig _ hdodd hdabs) (hset_sp _ hdne)
          · -- the weighted sum
            rw [hset_wsum, hq2w, hdsub]
            have hkey : (((window : Nat) : Int) - 2 ^ w) +
                (2 : Int) ^ w * ((1 : Nat) + ((q / 2 ^ w : Nat) : Int)) =
                (carry : Int) + ((q : Nat) : Int) := by
              rw [hwindef, Nat.cast_add, Nat.cast_one]
              linear_combination hqsplitI
            calc wsumI 2 naf +
                2 ^ pos * (((window : Nat) : Int) - 2 ^ w) +
                2 ^ (pos + w) * ((1 : Nat) + ((q / 2 ^ w : Nat) : Int))
                = wsumI 2 naf + 2 ^ pos * ((((window : Nat) : Int) - 2 ^ w) +
                  (2 : Int) ^ w * ((1 : Nat) + ((q / 2 ^ w : Nat) : Int))) := by
                  rw [pow_add]; push_cast; ring
              _ = wsumI 2 naf +
                  2 ^ pos * ((carry : Int) + ((q : Nat) : Int)) := by rw [hkey]
              _ = (x : Int) := hsum
          · -- a carry-out near the top is impossible: the window would be
            -- even
            intro h256
            exfalso
            have hposge : 256 - w ≤ pos := by omega
            have hqlt : q < 2 ^ (255 - pos) := by
              rw [hq]
              apply Nat.div_lt_iff_lt_mul (by positivity) |>.mpr
              calc x < 2 ^ 255 := hx
                _ = 2 ^ (255 - pos) * 2 ^ pos := by
                    rw [← pow_add]
                    congr 1
                    omega
            have hqsmall : q < 2 ^ (w - 1) :=
              lt_of_lt_of_le hqlt (Nat.pow_le_pow_right (by norm_num) (by omega))
            have hqmod : q % 2 ^ w = q := Nat.mod_eq_of_lt (by omega)
            rw [hwindef, hqmod] at hhalf hodd
            omega
    · -- fuel left but the loop condition is already false
      rw [nafLoop_exit xu w f naf pos carry hp]
      exact exit_case naf pos carry (by omega) hc1 hlen hexit hdig hsp hsum

/-- **C8.** For a scalar satisfying Invariant #1 (value `< 2^255`) and a
window width `2 ≤ w ≤ 8`, `non_adjacent_form w` returns 256 signed digits
whose binary weighted sum is the scalar's value, in which every nonzero
digit is odd with absolute value below `2^(w-1)`, and any two nonzero
digit positions lie at least `w` apart (so among any `w` consecutive
positions at most one digit is nonzero). -/
theorem non_adjacent_form_spec (s : Scalar) (w : Nat)
    (hlen : s.bytes.length = 32) (hb : isBytes s.bytes)
    (hx : bytesToNat s.bytes < 2 ^ 255) (hw2 : 2 ≤ w) (hw8 : w ≤ 8) :
    (s.non_adjacent_form w).length = 256 ∧
    wsumI 2 (s.non_adjacent_form w) = (toNatScalar s : Int) ∧
    (∀ j, (s.non_adjacent_form w).getD j 0 ≠ 0 →
      Odd ((s.non_adjacent_form w).getD j 0) ∧
      |(s.non_adjacent_form w).getD j 0| < 2 ^ (w - 1)) ∧
    (∀ i j, (s.non_adjacent_form w).getD i 0 ≠ 0 →
      (s.non_adjacent_form w).getD j 0 ≠ 0 → i < j → i + w ≤ j) := by
  have h := nafLoop_spec (bytesToNat s.bytes) w hw2 hw8 hx (xU64 s.bytes)
    (fun p hp => bitBuf_and_mask s.bytes hlen hb w p hw2 hw8 hp)
    256 (List.replicate 256 0) 0 0
    (by omega) (by omega) (by rw [List.length_replicate]) (by omega)
    (fun j _ => getD_replicate_zero 256 j)
    (fun j hj => absurd (getD_replicate_zero 256 j) hj)
    (fun i j hi _ _ => absurd (getD_replicate_zero 256 i) hi)
    (by
      rw [wsumI_replicate_zero, pow_zero, Nat.pow_zero, Nat.div_one]
      push_cast
      ring)
  exact h

/-- Closed-form witness for `non_adjacent_form_spec` at a concrete input. -/
theorem non_adjacent_form_spec_witness :
    (Scalar.non_adjacent_form ⟨List.replicate 32 1⟩ 5).length = 256 ∧
    wsumI 2 (Scalar.non_adjacent_form ⟨List.replicate 32 1⟩ 5) =
      (toNatScalar ⟨List.replicate 32 1⟩ : Int) := by
  have h := non_adjacent_form_spec ⟨List.replicate 32 1⟩ 5 (by decide)
    (by decide) (by decide) (by decide) (by decide)
  exact ⟨h.1, h.2.1⟩

/-! ## XEdDSA protocol layer (`libsig_curve25519_verus.rs`;
`verify_signature` is byte-for-byte identical in
`backend/serial/u64/curve25519_verus.rs`) -/

/-- The point and hash operations `calculate_signature` and
`verify_signature` call through `#[verifier::external_body]` wrappers
(`montgomery_to_edwards`, `edwards_compress`, `edwards_negate`,
`edwards_vartime_double_scalar_mul_basepoint`, `scalar_basepoint_mul`,
`scalar_from_hash`).  Their bodies live in the real curve25519-dalek
crate, outside this excerpt, so the protocol functions are stated for an
arbitrary implementation of this interface.  The SHA-512 state is the
concatenation of all bytes fed to `update`, and `scalar_from_hash`
consumes that state.  `compress_len` records the `[u8; 32]` return type
of point compression. -/
structure ExtOps (E : Type) where
  montgomery_to_edwards : List Nat → Nat → Option E
  edwards_compress : E → List Nat
  edwards_negate : E → E
  vartime_double_scalar_mul_basepoint : Scalar → E → Scalar → E
  scalar_basepoint_mul : Scalar → E
  scalar_from_hash : List Nat → Scalar
  compress_len : ∀ p, (edwards_compress p).length = 32

/-- Modelled from the spec: `scalar_mul` wraps `curve25519-dalek`
`Scalar` multiplication, outside this excerpt; spec §3 and §4.1: "All
arithmetic on `Scalars` is done modulo ℓ", results canonically encoded. -/
def scalar_mul (a b : Scalar) : Scalar :=
  ⟨natToBytes32 (toNatScalar a * toNatScalar b % groupOrder)⟩

/-- Modelled from the spec: `scalar_add` wraps `curve25519-dalek`
`Scalar` addition, outside this excerpt; spec §3 and §4.1: "All
arithmetic on `Scalars` is done modulo ℓ", results canonically encoded. -/
def scalar_add (a b : Scalar) : Scalar :=
  ⟨natToBytes32 ((toNatScalar a + toNatScalar b) % groupOrder)⟩

/-- The fixed domain-separation constant `hash_prefix` of
`calculate_signature`: `0xFE` followed by 31 bytes `0xFF`. -/
def hashPrefixBytes : List Nat := 254 :: List.replicate 31 255

/-- A `while i < n { dst[off+i] = src[i]; i += 1 }` copy loop. -/
def setRange (dst : List Nat) (off : Nat) : List Nat → List Nat
  | [] => dst
  | b :: bs => setRange (dst.set off b) (off + 1) bs

/-- `PrivateKey::calculate_signature` of `libsig_curve25519_verus.rs`.
`key_data` is the clamped private key bytes, `message` the list of
message slices, `random_bytes` the 64 bytes the CSPRNG wrote into `Z`. -/
def calculate_signature {E : Type} (ops : ExtOps E) (key_data : List Nat)
    (message : List (List Nat)) (random_bytes : List Nat) :
    List Nat × Scalar :=
  let a := Scalar.from_bytes_mod_order key_data
  let ed_public_key_point := ops.scalar_basepoint_mul a
  let ed_public_key := ops.edwards_compress ed_public_key_point
  let sign_bit := ed_public_key.getD 31 0 &&& 128
  let hash1 := ((hashPrefixBytes ++ key_data) ++ message.flatten) ++
    random_bytes
  let r := ops.scalar_from_hash hash1
  let cap_r := ops.edwards_compress (ops.scalar_basepoint_mul r)
  let hash := ((cap_r ++ ed_public_key) ++ message.flatten)
  let h := ops.scalar_from_hash hash
  let s := scalar_add (scalar_mul h a) r
  let result1 := setRange (List.replicate 64 0) 0 cap_r
  let result2 := setRange result1 32 s.bytes
  let last0 := result2.getD 63 0
  let last1 := last0 &&& 127
  let last2 := last1 ||| sign_bit
  (result2.set 63 last2, s)

/-- `PrivateKey::verify_signature` of `libsig_curve25519_verus.rs` (and,
verbatim, of `backend/serial/u64/curve25519_verus.rs`). -/
def verify_signature {E : Type} (ops : ExtOps E)
    (their_public_key : List Nat) (message : List (List Nat))
    (signature : List Nat) : Bool :=
  match ops.montgomery_to_edwards their_public_key
      ((signature.getD 63 0 &&& 128) >>> 7) with
  | none => false
  | some ed_pub_key_point =>
    let cap_a := ops.edwards_compress ed_pub_key_point
    let cap_r := (List.range 32).map (fun i => signature.getD i 0)
    let s0 := (List.range 32).map (fun i => signature.getD (32 + i) 0)
    let s1 := s0.set 31 (s0.getD 31 0 &&& 127)
    if s1.getD 31 0 &&& 224 ≠ 0 then
      false
    else
      let minus_cap_a := ops.edwards_negate ed_pub_key_point
      let hash := (cap_r ++ cap_a) ++ message.flatten
      let h := ops.scalar_from_hash hash
      let cap_r_check := ops.edwards_compress
        (ops.vartime_double_scalar_mul_basepoint h minus_cap_a
          (Scalar.from_bytes_mod_order s1))
      cap_r_check == cap_r

/-- Elements of `(List.range n).map f` read back pointwise. -/
theorem getD_range_map (n j : Nat) (f : Nat → Nat) (hj : j < n) :
    ((List.range n).map f).getD j 0 = f j := by
  have hlen : j < ((List.range n).map f).length := by
    simpa using hj
  rw [List.getD_eq_getElem?_getD, List.getElem?_eq_getElem hlen]
  simp

/-- **C5.** `verify_signature` fails closed: whenever converting the
Montgomery public key to an Edwards point with the sign bit taken from the
top bit of signature byte 63 yields `None`, the result is `false` — for
every implementation of the external point and hash operations. -/
theorem verify_signature_rejects_bad_point {E : Type} (ops : ExtOps E)
    (pk : List Nat) (msg : List (List Nat)) (sig : List Nat)
    (hconv : ops.montgomery_to_edwards pk ((sig.getD 63 0 &&& 128) >>> 7) =
      none) :
    verify_signature ops pk msg sig = false := by
  unfold verify_signature
  rw [hconv]

/-- **C6.** `verify_signature` returns `false` for every signature whose
`s` half, after clearing the top bit of byte 63, still has one of the next
two bits of mask `0b1110_0000` set (`s ≥ 2^253`) — for every public key
and every implementation of the external point and hash operations, in
particular independently of the double-scalar multiplication that would
follow. -/
theorem verify_signature_rejects_large_s {E : Type} (ops : ExtOps E)
    (pk : List Nat) (msg : List (List Nat)) (sig : List Nat)
    (hs : (sig.getD 63 0 &&& 127) &&& 224 ≠ 0) :
    verify_signature ops pk msg sig = false := by
  unfold verify_signature
  cases hconv : ops.montgomery_to_edwards pk
      ((sig.getD 63 0 &&& 128) >>> 7) with
  | none => rfl
  | some p =>
    have hs0 : ((List.range 32).map (fun i => sig.getD (32 + i) 0)).getD 31 0
        = sig.getD 63 0 := by
      rw [getD_range_map 32 31 _ (by omega)]
    have hs1 : (((List.range 32).map (fun i => sig.getD (32 + i) 0)).set 31
        ((((List.range 32).map (fun i => sig.getD (32 + i) 0)).getD 31 0)
          &&& 127)).getD 31 0 = sig.getD 63 0 &&& 127 := by
      rw [getD_set_self _ _ _ (by simp), hs0]
    simp only [hs1]
    rw [if_pos (by simpa using hs)]

/-- A trivial instantiation of the external operations, used to witness
the protocol-layer theorems at concrete inputs. -/
def unitOps : ExtOps Unit where
  montgomery_to_edwards := fun _ _ => none
  edwards_compress := fun _ => List.replicate 32 0
  edwards_negate := fun p => p
  vartime_double_scalar_mul_basepoint := fun _ _ _ => ()
  scalar_basepoint_mul := fun _ => ()
  scalar_from_hash := fun _ => Scalar.ZERO
  compress_len := fun _ => by rw [List.length_replicate]

/-- Closed-form witness for `verify_signature_rejects_bad_point`. -/
theorem verify_signature_rejects_bad_point_witness :
    verify_signature unitOps (List.replicate 32 0) []
      (List.replicate 64 0) = false :=
  verify_signature_rejects_bad_point unitOps (List.replicate 32 0) []
    (List.replicate 64 0) rfl

/-- Operations whose Montgomery-to-Edwards conversion always succeeds,
exercising the `s`-range check of `verify_signature` on its own. -/
def someOps : ExtOps Unit where
  montgomery_to_edwards := fun _ _ => some ()
  edwards_compress := fun _ => List.replicate 32 0
  edwards_negate := fun p => p
  vartime_double_scalar_mul_basepoint := fun _ _ _ => ()
  scalar_basepoint_mul := fun _ => ()
  scalar_from_hash := fun _ => Scalar.ZERO
  compress_len := fun _ => by rw [List.length_replicate]

/-- Closed-form witness for `verify_signature_rejects_large_s`: a
signature whose last byte has bits `0b1110_0000` set is rejected even
though the point conversion succeeds. -/
theorem verify_signature_rejects_large_s_witness :
    verify_signature someOps (List.replicate 32 0) []
      (List.replicate 63 0 ++ [224]) = false :=
  verify_signature_rejects_large_s someOps (List.replicate 32 0) []
    (List.replicate 63 0 ++ [224]) (by decide)

theorem set_append_off {α : Type} (pre : List α) (d : α) (ds : List α)
    (b : α) (off : Nat) (hoff : off = pre.length) :
    (pre ++ d :: ds).set off b = pre ++ b :: ds := by
  subst hoff
  induction pre with
  | nil => rfl
  | cons p ps ih => simp [List.set_cons_succ, ih]

theorem setRange_splice (src : List Nat) :
    ∀ (pre dst2 : List Nat) (off : Nat), off = pre.length →
    src.length ≤ dst2.length →
    setRange (pre ++ dst2) off src = (pre ++ src) ++ dst2.drop src.length := by
  induction src with
  | nil =>
    intro pre dst2 off hoff hlen
    simp [setRange]
  | cons b bs ih =>
    intro pre dst2 off hoff hlen
    cases dst2 with
    | nil => simp at hlen
    | cons d ds =>
      show setRange ((pre ++ d :: ds).set off b) (off + 1) bs = _
      rw [set_append_off pre d ds b off hoff]
      have h1 : pre ++ b :: ds = (pre ++ [b]) ++ ds := by simp
      have h2 : off + 1 = (pre ++ [b]).length := by simp [hoff]
      rw [h1, ih (pre ++ [b]) ds (off + 1) h2 (by simpa using hlen)]
      simp

theorem getD_append_off (a b : List Nat) (i j : Nat)
    (h : j = a.length + i) :
    (a ++ b).getD j 0 = b.getD i 0 := by
  subst h
  rw [List.getD_eq_getElem?_getD, List.getD_eq_getElem?_getD,
    List.getElem?_append_right (Nat.le_add_right _ _),
    Nat.add_sub_cancel_left]

theorem length_scalar_add (a b : Scalar) :
    (scalar_add a b).bytes.length = 32 := by
  unfold scalar_add
  exact length_natToBytesAux _ _

/-- The value computed by the modelled scalar arithmetic of
`calculate_signature` is `h·a + r (mod ℓ)`. -/
theorem scalar_add_mul_val (h a r : Scalar) :
    toNatScalar (scalar_add (scalar_mul h a) r) =
      (toNatScalar h * toNatScalar a + toNatScalar r) % groupOrder := by
  have hordpos : 0 < groupOrder := by decide
  have hord256 : groupOrder < 2 ^ 256 := by decide
  show bytesToNat (natToBytes32
    ((toNatScalar (scalar_mul h a) + toNatScalar r) % groupOrder)) = _
  rw [bytesToNat_natToBytes32 _ (by
    have := Nat.mod_lt (toNatScalar (scalar_mul h a) + toNatScalar r) hordpos
    calc _ < groupOrder := this
      _ < 256 ^ 32 := by decide)]
  show (bytesToNat (natToBytes32 (toNatScalar h * toNatScalar a % groupOrder))
    + toNatScalar r) % groupOrder = _
  rw [bytesToNat_natToBytes32 _ (by
    have := Nat.mod_lt (toNatScalar h * toNatScalar a) hordpos
    calc _ < groupOrder := this
      _ < 256 ^ 32 := by decide)]
  exact Nat.mod_add_mod _ _ _

/-- **C7.** `calculate_signature` outputs the compressed commitment
`R = r·B` in bytes 0..32 and the canonical encoding of
`s = h·a + r (mod ℓ)` in bytes 32..64, except that the most significant
bit of byte 63 is overwritten with the sign bit taken from the top bit of
the compressed public key `A` — for every implementation of the external
point and hash operations, every private key, message and 64 bytes of
randomness. -/
theorem calculate_signature_spec {E : Type} (ops : ExtOps E)
    (key : List Nat) (msg : List (List Nat)) (z : List Nat)
    (a r h : Scalar) (A R : List Nat)
    (ha : a = Scalar.from_bytes_mod_order key)
    (hA : A = ops.edwards_compress (ops.scalar_basepoint_mul a))
    (hr : r = ops.scalar_from_hash
      (((hashPrefixBytes ++ key) ++ msg.flatten) ++ z))
    (hR : R = ops.edwards_compress (ops.scalar_basepoint_mul r))
    (hh : h = ops.scalar_from_hash ((R ++ A) ++ msg.flatten)) :
    (calculate_signature ops key msg z).1 =
      R ++ (scalar_add (scalar_mul h a) r).bytes.take 31 ++
        [((scalar_add (scalar_mul h a) r).bytes.getD 31 0 &&& 127) |||
          (A.getD 31 0 &&& 128)] ∧
    (calculate_signature ops key msg z).2 = scalar_add (scalar_mul h a) r ∧
    toNatScalar (scalar_add (scalar_mul h a) r) =
      (toNatScalar h * toNatScalar a + toNatScalar r) % groupOrder := by
  subst ha hA hr hR hh
  refine ⟨?_, rfl, scalar_add_mul_val _ _ _⟩
  simp only [calculate_signature]
  set r := ops.scalar_from_hash (((hashPrefixBytes ++ key) ++ msg.flatten)
    ++ z) with hrdef
  set a := Scalar.from_bytes_mod_order key with hadef
  set R := ops.edwards_compress (ops.scalar_basepoint_mul r) with hRdef
  set A := ops.edwards_compress (ops.scalar_basepoint_mul a) with hAdef
  set h := ops.scalar_from_hash ((R ++ A) ++ msg.flatten) with hhdef
  set sb := (scalar_add (scalar_mul h a) r).bytes with hsbdef
  have hRlen : R.length = 32 := ops.compress_len _
  have hslen : sb.length = 32 := length_scalar_add _ _
  have hstep1 : setRange (List.replicate 64 0) 0 R =
      R ++ List.replicate 32 0 := by
    have := setRange_splice R [] (List.replicate 64 0) 0 rfl
      (by rw [hRlen, List.length_replicate]; omega)
    rw [List.nil_append] at this
    rw [this, hRlen]
    rfl
  have hstep2 : setRange (R ++ List.replicate 32 0) 32 sb = R ++ sb := by
    rw [setRange_splice sb R (List.replicate 32 0) 32 hRlen.symm
      (by rw [hslen, List.length_replicate]), hslen]
    simp
  have hget : (R ++ sb).getD 63 0 = sb.getD 31 0 :=
    getD_append_off R sb 31 63 (by omega)
  have hdecomp : R ++ sb = (R ++ sb.take 31) ++
      sb.getD 31 0 :: [] := by
    conv_lhs => rw [← List.take_append_drop 31 sb,
      drop31_of_length32 sb hslen]
    rw [List.append_assoc]
  rw [hstep1, hstep2, hget, hdecomp,
    set_append_off _ _ _ _ 63 (by
      rw [List.length_append, hRlen, List.length_take, hslen]; omega),
    List.append_assoc]

/-- Closed-form witness for `calculate_signature_spec` at concrete
operations and inputs. -/
theorem calculate_signature_spec_witness :
    (calculate_signature someOps (List.replicate 32 0) []
        (List.replicate 64 0)).1 =
      List.replicate 32 0 ++
        (scalar_add (scalar_mul Scalar.ZERO
          (Scalar.from_bytes_mod_order (List.replicate 32 0)))
          Scalar.ZERO).bytes.take 31 ++
        [((scalar_add (scalar_mul Scalar.ZERO
            (Scalar.from_bytes_mod_order (List.replicate 32 0)))
            Scalar.ZERO).bytes.getD 31 0 &&& 127) |||
          ((List.replicate 32 (0 : Nat)).getD 31 0 &&& 128)] ∧
    (calculate_signature someOps (List.replicate 32 0) []
        (List.replicate 64 0)).2 =
      scalar_add (scalar_mul Scalar.ZERO
        (Scalar.from_bytes_mod_order (List.replicate 32 0))) Scalar.ZERO ∧
    toNatScalar (scalar_add (scalar_mul Scalar.ZERO
        (Scalar.from_bytes_mod_order (List.replicate 32 0))) Scalar.ZERO) =
      (toNatScalar Scalar.ZERO *
        toNatScalar (Scalar.from_bytes_mod_order (List.replicate 32 0)) +
        toNatScalar Scalar.ZERO) % groupOrder :=
  calculate_signature_spec someOps (List.replicate 32 0) []
    (List.replicate 64 0)
    (Scalar.from_bytes_mod_order (List.replicate 32 0)) Scalar.ZERO
    Scalar.ZERO (List.replicate 32 0) (List.replicate 32 0)
    rfl rfl rfl rfl rfl

end Dalek

